import Mathlib

/-!
Verification of the `http-file-server` request handler (`src/server.go`).

The Go handler is shallowly embedded below.  Strings are modelled as Lean
`String`s (sequences of Unicode code points); the Go strings handled here
(routes, URL paths, filenames) are assumed valid UTF-8, on which Go's
byte-wise operations coincide with the code-point-wise ones used here.
The host is the forward-slash platform (`filepath.Separator = '/'`), so the
`strings.ReplaceAll(urlPath, "/", osPathSeparator)` step of `ServeHTTP` is
the identity and is not repeated in the model.
-/

namespace HttpFileServer

/-- Model of Go `strings.HasPrefix(s, p)` on the underlying
character lists (byte-wise prefix on valid UTF-8 equals code-point prefix). -/
def listPref : List Char → List Char → Bool
  | [], _ => true
  | _ :: _, [] => false
  | a :: as, b :: bs => a = b && listPref as bs

/-- Go `strings.HasPrefix(s, p)`. -/
def strHasPref (p s : String) : Bool := listPref p.data s.data

/-- Go `strings.TrimPrefix(s, p)`: drop `p` from the front of `s` when it is
a prefix, otherwise return `s` unchanged. -/
def trimPref (s p : String) : String :=
  if strHasPref p s then String.mk (s.data.drop p.data.length) else s

/-- Split a character list on `'/'` (the segment decomposition underlying
`filepath.Clean`'s element scan); never returns `[]`. -/
def splitSegs : List Char → List (List Char)
  | [] => [[]]
  | c :: rest =>
    if c = '/' then [] :: splitSegs rest
    else
      match splitSegs rest with
      | s :: ss => (c :: s) :: ss
      | [] => [[c]]

/-- Join segments with `'/'` (inverse of `splitSegs`). -/
def renderSegs : List (List Char) → List Char
  | [] => []
  | [s] => s
  | s :: rest => s ++ '/' :: renderSegs rest

/-- One step of `filepath.Clean`'s element scan: skip empty and `.` elements,
let `..` pop the last kept element (or be kept itself when the last kept
element is also `..`, or when nothing remains and the path is not rooted),
keep everything else.  `st` is the stack of kept elements, most recent
first. -/
def pushSeg (rooted : Bool) (st : List (List Char)) (seg : List Char) : List (List Char) :=
  if seg = [] ∨ seg = ['.'] then st
  else if seg = ['.', '.'] then
    match st with
    | t :: rest => if t = ['.', '.'] then seg :: st else rest
    | [] => if rooted then [] else [seg]
  else seg :: st

/-- Reattach the cleaned body to its context: rooted paths get their leading
`/` back (a rooted path that cleaned to nothing is `/`), and a relative path
that cleaned to nothing is `.`. -/
def assemble (rooted : Bool) (body : List Char) : List Char :=
  if rooted then (if body = [] then ['/'] else '/' :: body)
  else (if body = [] then ['.'] else body)

/-- Go `path/filepath.Clean` on a forward-slash platform, at the character
level: lexical cleaning that collapses `.`/`..`/empty segments, keeps a
leading `/`, and returns `"."` for an empty result on a relative path. -/
def cleanChars (p : List Char) : List Char :=
  if p = [] then ['.']
  else
    assemble (listPref ['/'] p)
      (renderSegs (((splitSegs p).foldl (pushSeg (listPref ['/'] p)) []).reverse))

/-- Go `filepath.Clean` (forward-slash platform). -/
def clean (s : String) : String := String.mk (cleanChars s.data)

/-- Go `filepath.Join(a, b)` (forward-slash platform): empty elements are
dropped, the rest are joined with `/` and the result is `Clean`ed; joining
two empty strings yields the empty string. -/
def joinPath (a b : String) : String :=
  if a = "" then (if b = "" then "" else clean b)
  else if b = "" then clean a
  else clean (a ++ "/" ++ b)

/-- The route-prefix stripping of `fileHandler.ServeHTTP` (src/server.go
lines 265-270): ensure a leading `/`, then `strings.TrimPrefix` with the
route and with `"/" ++ route`, in that order. -/
def stripRoute (route raw : String) : String :=
  let p := if strHasPref "/" raw then raw else "/" ++ raw
  let p := trimPref p route
  trimPref p ("/" ++ route)

/-- The full path resolution of `fileHandler.ServeHTTP` (src/server.go lines
265-274): strip the route, translate separators (identity here), `Clean`,
then `Join` onto the mount's root path. -/
def resolvePath (root route raw : String) : String :=
  joinPath root (clean (stripRoute route raw))

/-- The claim's containment property: `q` equals `root` or is lexically a
descendant of `root` (a root of `"/"` contains every absolute path). -/
def withinRoot (root q : String) : Bool :=
  if root = "/" then strHasPref "/" q
  else q = root || strHasPref (root ++ "/") q

/-- Holds when the segment contains no separator character. -/
def noSlash : List Char → Bool
  | [] => true
  | c :: rest => decide (c ≠ '/') && noSlash rest

/-- A path segment acceptable inside a canonical absolute path: nonempty,
not `.` or `..`, and free of separators. -/
def goodSeg (s : List Char) : Bool :=
  decide (s ≠ []) && decide (s ≠ ['.']) && decide (s ≠ ['.', '.']) && noSlash s

/-- Checks that `root` is a canonical absolute path: `/` itself, or a leading `/`
followed by separator-joined good segments (no trailing slash, no `.`/`..`
segments, no empty segments).  Mount root paths are configured in this
form. -/
def isCanonAbs (root : String) : Bool :=
  root = "/" ||
    (listPref ['/'] root.data && (splitSegs (root.data.drop 1)).all goodSeg)

/-- The stack of kept segments produced by cleaning a rooted path. -/
def cleanStack (p : List Char) : List (List Char) :=
  ((splitSegs p).foldl (pushSeg true) []).reverse

/-! Basic lemmas about the string and segment operations. -/

lemma strData_append (a b : String) : (a ++ b).data = a.data ++ b.data := by
  cases a; cases b; rfl

lemma string_eq_of_data {a b : String} (h : a.data = b.data) : a = b := by
  cases a; cases b; exact congrArg String.mk h

lemma listPref_append (a b c : List Char) :
    listPref (a ++ b) (a ++ c) = listPref b c := by
  induction a with
  | nil => rfl
  | cons x xs ih => simp [listPref, ih]

lemma listPref_self_append (a t : List Char) : listPref a (a ++ t) = true := by
  have h := listPref_append a [] t
  simpa using h

lemma splitSegs_ne_nil (l : List Char) : splitSegs l ≠ [] := by
  cases l with
  | nil => simp [splitSegs]
  | cons c rest =>
    by_cases h : c = '/'
    · simp [splitSegs, h]
    · simp only [splitSegs, if_neg h]
      cases splitSegs rest <;> simp

lemma splitSegs_append (a b : List Char) :
    splitSegs (a ++ '/' :: b) = splitSegs a ++ splitSegs b := by
  induction a with
  | nil => simp [splitSegs]
  | cons c a ih =>
    by_cases h : c = '/'
    · simp [splitSegs, h, ih]
    · cases hs : splitSegs a with
      | nil => exact absurd hs (splitSegs_ne_nil a)
      | cons s ss =>
        simp only [List.cons_append, splitSegs, if_neg h, List.append_eq]
        rw [ih, hs]
        simp

lemma splitSegs_noSlash {l s : List Char} (hs : s ∈ splitSegs l) :
    noSlash s = true := by
  induction l generalizing s with
  | nil =>
    simp [splitSegs] at hs
    simp [hs, noSlash]
  | cons c rest ih =>
    by_cases h : c = '/'
    · simp only [splitSegs, if_pos h, List.mem_cons] at hs
      rcases hs with hs | hs
      · simp [hs, noSlash]
      · exact ih hs
    · simp only [splitSegs, if_neg h] at hs
      cases hrest : splitSegs rest with
      | nil => exact absurd hrest (splitSegs_ne_nil rest)
      | cons t ts =>
        rw [hrest] at hs
        simp only [List.mem_cons] at hs
        rcases hs with hs | hs
        · subst hs
          have ht : noSlash t = true := ih (hrest ▸ List.mem_cons_self t ts)
          simp [noSlash, h, ht]
        · exact ih (hrest ▸ List.mem_cons_of_mem t hs)

lemma splitSegs_of_noSlash {l : List Char} (h : noSlash l = true) :
    splitSegs l = [l] := by
  induction l with
  | nil => rfl
  | cons c rest ih =>
    simp only [noSlash, Bool.and_eq_true, decide_eq_true_eq] at h
    obtain ⟨hc, hrest⟩ := h
    simp [splitSegs, hc, ih hrest]

lemma renderSegs_splitSegs (l : List Char) : renderSegs (splitSegs l) = l := by
  induction l with
  | nil => rfl
  | cons c rest ih =>
    by_cases h : c = '/'
    · subst h
      simp only [splitSegs, if_pos rfl]
      cases hrest : splitSegs rest with
      | nil => exact absurd hrest (splitSegs_ne_nil rest)
      | cons s ss =>
        rw [hrest] at ih
        simp [renderSegs, ih]
    · simp only [splitSegs, if_neg h]
      cases hrest : splitSegs rest with
      | nil => exact absurd hrest (splitSegs_ne_nil rest)
      | cons s ss =>
        rw [hrest] at ih
        cases ss with
        | nil => simp_all [renderSegs]
        | cons s2 ss2 => simp_all [renderSegs]

lemma renderSegs_cons_cons (s t : List Char) (l : List (List Char)) :
    renderSegs (s :: t :: l) = s ++ '/' :: renderSegs (t :: l) := by
  simp [renderSegs]

lemma renderSegs_append (r : List Char) (rs us : List (List Char)) (hus : us ≠ []) :
    renderSegs ((r :: rs) ++ us) = renderSegs (r :: rs) ++ '/' :: renderSegs us := by
  induction rs generalizing r with
  | nil =>
    cases us with
    | nil => exact absurd rfl hus
    | cons u us2 => simp [renderSegs]
  | cons r2 rs2 ih =>
    have h1 : (r :: r2 :: rs2) ++ us = r :: ((r2 :: rs2) ++ us) := by simp
    have h2 : (r2 :: rs2) ++ us = r2 :: (rs2 ++ us) := by simp
    rw [h1, h2, renderSegs_cons_cons, ← h2, ih r2, renderSegs_cons_cons]
    simp

lemma splitSegs_renderSegs {us : List (List Char)} (hne : us ≠ [])
    (hns : ∀ s ∈ us, noSlash s = true) : splitSegs (renderSegs us) = us := by
  induction us with
  | nil => exact absurd rfl hne
  | cons u us ih =>
    cases us with
    | nil =>
      simp only [renderSegs]
      exact splitSegs_of_noSlash (hns u (by simp))
    | cons u2 us2 =>
      rw [renderSegs_cons_cons, splitSegs_append, splitSegs_of_noSlash (hns u (by simp)),
        ih (by simp) (fun s hs => hns s (List.mem_cons_of_mem u hs))]
      rfl

lemma pushSeg_nil_seg (rooted : Bool) (st : List (List Char)) :
    pushSeg rooted st [] = st := by
  simp [pushSeg]

lemma pushSeg_good {seg : List Char} (rooted : Bool) (st : List (List Char))
    (h : goodSeg seg = true) : pushSeg rooted st seg = seg :: st := by
  simp only [goodSeg, Bool.and_eq_true, decide_eq_true_eq] at h
  obtain ⟨⟨⟨h1, h2⟩, h3⟩, _⟩ := h
  simp [pushSeg, h1, h2, h3]

lemma foldl_pushSeg_good : ∀ segs : List (List Char),
    (∀ s ∈ segs, goodSeg s = true) → ∀ st : List (List Char),
    segs.foldl (pushSeg true) st = segs.reverse ++ st := by
  intro segs
  induction segs with
  | nil => intro _ st; rfl
  | cons seg segs ih =>
    intro hgood st
    rw [List.foldl_cons, pushSeg_good true st (hgood seg (by simp)),
      ih (fun s hs => hgood s (List.mem_cons_of_mem seg hs))]
    simp

lemma foldl_pushSeg_stack_good : ∀ segs : List (List Char),
    (∀ s ∈ segs, noSlash s = true) → ∀ st : List (List Char),
    (∀ s ∈ st, goodSeg s = true) →
    ∀ s ∈ segs.foldl (pushSeg true) st, goodSeg s = true := by
  intro segs
  induction segs with
  | nil => intro _ st hst s hs; exact hst s hs
  | cons seg segs ih =>
    intro hns st hst s hs
    rw [List.foldl_cons] at hs
    refine ih (fun t ht => hns t (List.mem_cons_of_mem seg ht)) _ ?_ s hs
    intro t ht
    by_cases h1 : seg = [] ∨ seg = ['.']
    · simp only [pushSeg, if_pos h1] at ht
      exact hst t ht
    · by_cases h2 : seg = ['.', '.']
      · cases st with
        | nil => simp [pushSeg, h1, h2] at ht
        | cons top rest =>
          have htop := hst top (by simp)
          have hne : top ≠ ['.', '.'] := by
            intro he
            rw [he] at htop
            simp [goodSeg] at htop
          simp only [pushSeg, if_neg h1, if_pos h2, if_neg hne] at ht
          exact hst t (List.mem_cons_of_mem top ht)
      · simp only [pushSeg, if_neg h1, if_neg h2] at ht
        rcases List.mem_cons.mp ht with h | h
        · subst h
          push_neg at h1
          simp only [goodSeg, Bool.and_eq_true, decide_eq_true_eq]
          exact ⟨⟨⟨h1.1, h1.2⟩, h2⟩, hns t (by simp)⟩
        · exact hst t h

lemma assemble_true (body : List Char) : assemble true body = '/' :: body := by
  by_cases h : body = [] <;> simp [assemble, h]

lemma cleanChars_ne_nil (p : List Char) : cleanChars p ≠ [] := by
  by_cases hp : p = []
  · simp [cleanChars, hp]
  · simp only [cleanChars, if_neg hp, assemble]
    by_cases hr : listPref ['/'] p = true
    · rw [if_pos hr]
      split <;> simp
    · rw [if_neg hr]
      split <;> simp_all

lemma cleanChars_rooted {p : List Char} (hp : listPref ['/'] p = true) :
    cleanChars p = '/' :: renderSegs (cleanStack p) := by
  have hpne : p ≠ [] := by
    intro h; rw [h] at hp; simp [listPref] at hp
  rw [cleanChars, if_neg hpne, hp, assemble_true, cleanStack]

lemma cleanStack_good (p : List Char) : ∀ s ∈ cleanStack p, goodSeg s = true := by
  intro s hs
  rw [cleanStack, List.mem_reverse] at hs
  exact foldl_pushSeg_stack_good (splitSegs p) (fun t ht => splitSegs_noSlash ht) []
    (by intro t ht; simp at ht) s hs

lemma listPref_slash_cons (l : List Char) : listPref ['/'] ('/' :: l) = true := by
  simp [listPref]

lemma splitSegs_slash_cons (l : List Char) : splitSegs ('/' :: l) = [] :: splitSegs l := by
  simp [splitSegs]

lemma string_ne_empty_of_data {s : String} (h : s.data ≠ []) : s ≠ "" := by
  intro he
  rw [he] at h
  exact h rfl

lemma cleanChars_keeps_rooted {p : List Char} (hp : listPref ['/'] p = true) :
    listPref ['/'] (cleanChars p) = true := by
  rw [cleanChars_rooted hp]
  exact listPref_slash_cons _

/-- Processing the segments of `('/' :: rest) ++ '/' :: tail` from an empty
stack is the same as processing the segments of `tail` on top of the already
kept (reversed) segments of a canonical root body `rest`. -/
lemma foldl_after_root (rest tail : List Char)
    (hall : ∀ s ∈ splitSegs rest, goodSeg s = true) :
    (splitSegs (('/' :: rest) ++ '/' :: tail)).foldl (pushSeg true) [] =
      (splitSegs tail).foldl (pushSeg true) ((splitSegs rest).reverse) := by
  rw [List.cons_append, splitSegs_slash_cons, splitSegs_append, List.foldl_cons,
    pushSeg_nil_seg, List.foldl_append, foldl_pushSeg_good (splitSegs rest) hall []]
  rw [List.append_nil]

/-- Cleaning a canonical absolute root joined (with a separator) onto an
already-clean absolute suffix `'/' :: renderSegs us` keeps the root intact
and appends the suffix segments. -/
lemma cleanChars_concat (rest : List Char) (us : List (List Char))
    (hall : ∀ s ∈ splitSegs rest, goodSeg s = true)
    (hus : ∀ s ∈ us, goodSeg s = true) :
    cleanChars (('/' :: rest) ++ '/' :: '/' :: renderSegs us) =
      if us = [] then '/' :: rest else ('/' :: rest) ++ '/' :: renderSegs us := by
  have hne : ('/' :: rest) ++ '/' :: '/' :: renderSegs us ≠ [] := by simp
  have hrooted : listPref ['/'] (('/' :: rest) ++ '/' :: '/' :: renderSegs us) = true := by
    rw [List.cons_append]
    exact listPref_slash_cons _
  rw [cleanChars, if_neg hne, hrooted, assemble_true, foldl_after_root _ _ hall,
    splitSegs_slash_cons]
  rw [List.foldl_cons, pushSeg_nil_seg]
  by_cases h : us = []
  · subst h
    simp only [renderSegs, splitSegs, List.foldl_cons, pushSeg_nil_seg, List.foldl_nil,
      List.reverse_reverse]
    rw [renderSegs_splitSegs]
    simp
  · have hns : ∀ s ∈ us, noSlash s = true := by
      intro s hs
      have := hus s hs
      simp only [goodSeg, Bool.and_eq_true] at this
      exact this.2
    rw [splitSegs_renderSegs h hns, foldl_pushSeg_good us hus, if_neg h,
      List.reverse_append, List.reverse_reverse, List.reverse_reverse]
    cases hrs : splitSegs rest with
    | nil => exact absurd hrs (splitSegs_ne_nil rest)
    | cons r rs2 =>
      rw [renderSegs_append r rs2 us h, ← hrs, renderSegs_splitSegs]
      simp

/-- Cleaning a canonical absolute root joined with the relative path `.`
returns the root unchanged. -/
lemma cleanChars_root_dot (rest : List Char)
    (hall : ∀ s ∈ splitSegs rest, goodSeg s = true) :
    cleanChars (('/' :: rest) ++ ['/', '.']) = '/' :: rest := by
  have hne : ('/' :: rest) ++ ['/', '.'] ≠ [] := by simp
  have hrooted : listPref ['/'] (('/' :: rest) ++ ['/', '.']) = true := by
    rw [List.cons_append]
    exact listPref_slash_cons _
  have htail : ('/' : Char) :: ['.'] = '/' :: ['.'] := rfl
  rw [cleanChars, if_neg hne, hrooted, assemble_true]
  rw [show (['/', '.'] : List Char) = '/' :: ['.'] from rfl, foldl_after_root _ _ hall]
  have hdot : splitSegs ['.'] = [['.']] := by simp [splitSegs]
  rw [hdot, List.foldl_cons, List.foldl_nil]
  have hskip : pushSeg true ((splitSegs rest).reverse) ['.'] = (splitSegs rest).reverse := by
    simp [pushSeg]
  rw [hskip, List.reverse_reverse, renderSegs_splitSegs]

/-- Decompose a canonical absolute root other than `/` into `'/' :: rest`
with all segments of `rest` good. -/
lemma isCanonAbs_elim {root : String} (hroot : isCanonAbs root = true)
    (hr : root ≠ "/") :
    root.data = '/' :: root.data.drop 1 ∧
      ∀ s ∈ splitSegs (root.data.drop 1), goodSeg s = true := by
  simp only [isCanonAbs, Bool.or_eq_true, Bool.and_eq_true, decide_eq_true_eq] at hroot
  rcases hroot with hroot | ⟨h1, h2⟩
  · exact absurd hroot hr
  · constructor
    · cases hd : root.data with
      | nil => rw [hd] at h1; simp [listPref] at h1
      | cons c l =>
        rw [hd] at h1
        simp only [listPref, Bool.and_eq_true, decide_eq_true_eq] at h1
        simp [← h1.1]
    · intro s hs
      exact (List.all_eq_true.mp h2) s hs

lemma slash_data : ("/" : String).data = ['/'] := rfl

lemma resolvePath_def (root route raw : String) :
    resolvePath root route raw = joinPath root (clean (stripRoute route raw)) := rfl

lemma joinPath_eq {a b : String} (ha : a ≠ "") (hb : b ≠ "") :
    joinPath a b = clean (a ++ "/" ++ b) := by
  simp only [joinPath]
  rw [if_neg ha, if_neg hb]

lemma clean_data (s : String) : (clean s).data = cleanChars s.data := rfl

lemma canonAbs_ne_empty {root : String} (hroot : isCanonAbs root = true) :
    root ≠ "" := by
  by_cases hr : root = "/"
  · rw [hr]; intro h; exact absurd (congrArg String.data h) (by simp [slash_data])
  · obtain ⟨hdecomp, _⟩ := isCanonAbs_elim hroot hr
    exact string_ne_empty_of_data (by rw [hdecomp]; simp)

/-- C1 (amended): for every mount whose root path is in canonical absolute
form and every raw URL path for which the route-prefix stripping still leaves
an absolute (slash-leading) path, the resolved filesystem path is lexically
equal to the root path or a descendant of it.  (The unamended claim, over
*all* raw paths, is refuted by `resolvePath_escape_cex`.) -/
theorem resolvePath_contained (root route raw : String)
    (hroot : isCanonAbs root = true)
    (habs : strHasPref "/" (stripRoute route raw) = true) :
    withinRoot root (resolvePath root route raw) = true := by
  have habs' : listPref ['/'] (stripRoute route raw).data = true := habs
  have hcdata : (clean (stripRoute route raw)).data =
      '/' :: renderSegs (cleanStack (stripRoute route raw).data) := by
    rw [clean_data]
    exact cleanChars_rooted habs'
  set c := clean (stripRoute route raw) with hc
  set us := cleanStack (stripRoute route raw).data with husdef
  have hus : ∀ t ∈ us, goodSeg t = true := cleanStack_good _
  have hcne : c ≠ "" := string_ne_empty_of_data (by rw [hcdata]; simp)
  have hrne : root ≠ "" := canonAbs_ne_empty hroot
  have hjoin : resolvePath root route raw = clean (root ++ "/" ++ c) := by
    rw [resolvePath_def, ← hc, joinPath_eq hrne hcne]
  by_cases hr : root = "/"
  · subst hr
    rw [hjoin, withinRoot, if_pos rfl]
    show listPref ['/'] (cleanChars ("/" ++ "/" ++ c).data) = true
    apply cleanChars_keeps_rooted
    rw [strData_append, strData_append, slash_data]
    exact listPref_slash_cons _
  · obtain ⟨hdecomp, hall⟩ := isCanonAbs_elim hroot hr
    set rest := root.data.drop 1 with hrest
    have hcombined : (root ++ "/" ++ c).data =
        ('/' :: rest) ++ '/' :: '/' :: renderSegs us := by
      rw [strData_append, strData_append, slash_data, hcdata, hdecomp, List.append_assoc]
      rfl
    have hmain := cleanChars_concat rest us hall hus
    rw [hjoin]
    by_cases hu : us = []
    · have hres : clean (root ++ "/" ++ c) = root := by
        apply string_eq_of_data
        rw [clean_data, hcombined, hmain, if_pos hu, hdecomp]
      rw [hres, withinRoot, if_neg hr]
      simp
    · have hres : (clean (root ++ "/" ++ c)).data = ('/' :: rest) ++ '/' :: renderSegs us := by
        rw [clean_data, hcombined, hmain, if_neg hu]
      rw [withinRoot, if_neg hr, Bool.or_eq_true]
      right
      show listPref (root ++ "/").data (clean (root ++ "/" ++ c)).data = true
      rw [strData_append, slash_data, hres, hdecomp]
      have hsplit : ('/' :: rest) ++ '/' :: renderSegs us =
          (('/' :: rest) ++ ['/']) ++ renderSegs us := by simp
      rw [hsplit]
      exact listPref_self_append _ _

/-- C1 counterexample: with the perfectly ordinary mount configuration
`route = "/", rootPath = "/srv/root"`, the raw URL path
`"/../../etc/passwd"` resolves to `"/etc/passwd"`, which is outside the
root: the prefix strip removes the leading slash, leaving a relative path
whose leading `..` segments survive `Clean` and climb out of the root during
`Join`. -/
theorem resolvePath_escape_cex :
    resolvePath "/srv/root" "/" "/../../etc/passwd" = "/etc/passwd" ∧
    withinRoot "/srv/root" (resolvePath "/srv/root" "/" "/../../etc/passwd") = false := by
  constructor
  · rfl
  · rfl

/-- Witness for `resolvePath_contained` at a concrete mount and request. -/
theorem resolvePath_contained_witness :
    isCanonAbs "/srv/root" = true ∧
    strHasPref "/" (stripRoute "/files" "/files/a/../b") = true ∧
    withinRoot "/srv/root" (resolvePath "/srv/root" "/files" "/files/a/../b") = true :=
  ⟨by decide, by decide,
    resolvePath_contained "/srv/root" "/files" "/files/a/../b" (by decide) (by decide)⟩

/-- C9: a request whose route-relative URL path lexically cleans to `.`
(or the empty string, which `Clean` in fact never produces) resolves to the
mount's root path itself. -/
theorem resolvePath_mountRoot (root route raw : String)
    (hroot : isCanonAbs root = true)
    (hdot : clean (stripRoute route raw) = "." ∨ clean (stripRoute route raw) = "") :
    resolvePath root route raw = root := by
  rcases hdot with hdot | hdot
  · have hrne : root ≠ "" := canonAbs_ne_empty hroot
    have hjoin : resolvePath root route raw = clean (root ++ "/" ++ ".") := by
      rw [resolvePath_def, hdot, joinPath_eq hrne (by decide)]
    by_cases hr : root = "/"
    · subst hr
      rw [hjoin]
      rfl
    · obtain ⟨hdecomp, hall⟩ := isCanonAbs_elim hroot hr
      rw [hjoin]
      apply string_eq_of_data
      rw [clean_data]
      have hcombined : (root ++ "/" ++ ".").data = ('/' :: root.data.drop 1) ++ ['/', '.'] := by
        rw [strData_append, strData_append, slash_data, hdecomp, List.append_assoc]
        rfl
      rw [hcombined, cleanChars_root_dot _ hall]
      exact hdecomp.symm
  · exfalso
    have : (clean (stripRoute route raw)).data = [] := by rw [hdot]
    rw [clean_data] at this
    exact cleanChars_ne_nil _ this

/-- Witness for `resolvePath_mountRoot`: requesting exactly the route prefix
serves the mount root. -/
theorem resolvePath_mountRoot_witness :
    isCanonAbs "/srv" = true ∧
    clean (stripRoute "/files" "/files") = "." ∧
    resolvePath "/srv" "/files" "/files" = "/srv" :=
  ⟨by decide, by decide,
    resolvePath_mountRoot "/srv" "/files" "/files" (by decide) (Or.inl (by decide))⟩

/-! The request dispatcher (`fileHandler.ServeHTTP`, src/server.go 263-315). -/

/-- The mount configuration (struct `fileHandler`, src/server.go 127-132). -/
structure fileHandler where
  route : String
  path : String
  allowUpload : Bool
  allowDelete : Bool

/-- Outcome of the `os.Stat` call as distinguished by `ServeHTTP`'s switch
(nonexistence, permission error, any other stat error, or success together
with whether the target is a directory). -/
inductive StatResult
  | errNotExist
  | errPerm
  | errOther
  | ok (isDir : Bool)
deriving DecidableEq

/-- Go `url.Values.Get`: the first value recorded for the key, `""` when the
key is absent. -/
def qget : List (String × String) → String → String
  | [], _ => ""
  | (k2, v) :: rest, k => if k2 = k then v else qget rest k

/-- The branch of `ServeHTTP`'s switch selected for a request. -/
inductive Branch
  | respondStatus (code : Nat)
  | serveZip
  | serveTarGz
  | uploadTo
  | removeFile
  | serveDir
  | serveFile
deriving DecidableEq

/-- The switch of `fileHandler.ServeHTTP` (src/server.go 276-314), given the
stat result for the resolved path: 404/403/500 on stat errors, 403 for a
DELETE (resp. POST) on a mount without `allowDelete` (resp. `allowUpload`),
then the `zip` and `tar.gz` query parameters (in that order, each triggering
whenever `Get` returns a non-empty value), then upload, delete, directory
listing, and finally `http.ServeFile`. -/
def dispatch (f : fileHandler) (method : String) (query : List (String × String))
    (st : StatResult) : Branch :=
  match st with
  | .errNotExist => .respondStatus 404
  | .errPerm => .respondStatus 403
  | .errOther => .respondStatus 500
  | .ok isDir =>
    if !f.allowDelete && method = "DELETE" then .respondStatus 403
    else if !f.allowUpload && method = "POST" then .respondStatus 403
    else if qget query "zip" ≠ "" then .serveZip
    else if qget query "tar.gz" ≠ "" then .serveTarGz
    else if f.allowUpload && isDir && method = "POST" then .uploadTo
    else if f.allowDelete && !isDir && method = "DELETE" then .removeFile
    else if isDir then .serveDir
    else .serveFile

/-- Whether the selected branch performs a filesystem write: only the upload
branch writes a file (`serveUploadTo`) and only the delete branch calls
`os.Remove`; every other branch of the switch only reads. -/
def branchMutatesFs : Branch → Bool
  | .uploadTo => true
  | .removeFile => true
  | _ => false

/-! The response writer, the upload handler and the filesystem model. -/

/-- The observable response state of Go's `http.ResponseWriter`: the first
`WriteHeader` call fixes the status (later calls are superfluous no-ops), a
body `Write` before any `WriteHeader` implies status 200, and body writes
append. -/
structure GoResponse where
  status : Option Nat
  location : Option String
  body : String
deriving DecidableEq

def emptyResponse : GoResponse := { status := none, location := none, body := "" }

def writeHeader (w : GoResponse) (code : Nat) : GoResponse :=
  match w.status with
  | none => { w with status := some code }
  | some _ => w

def writeBody (w : GoResponse) (s : String) : GoResponse :=
  match w.status with
  | none => { w with status := some 200, body := w.body ++ s }
  | some _ => { w with body := w.body ++ s }

/-- Go `http.StatusText` for the codes used by the handler. -/
def statusText : Nat → String
  | 200 => "OK"
  | 303 => "See Other"
  | 403 => "Forbidden"
  | 404 => "Not Found"
  | 500 => "Internal Server Error"
  | _ => ""

/-- `fileHandler.serveStatus` (src/server.go 138-145): write the status code
and the status text as the body. -/
def serveStatus (w : GoResponse) (code : Nat) : GoResponse :=
  writeBody (writeHeader w code) (statusText code)

/-- Go `filepath.Base` (forward-slash platform): the empty path gives `.`,
trailing slashes are dropped, the last element is returned, and an all-slash
path gives `/`. -/
def basePath (p : String) : String :=
  if p = "" then "."
  else
    let l := p.data.reverse.dropWhile (fun c => c = '/')
    if l = [] then "/"
    else String.mk ((l.takeWhile (fun c => c ≠ '/')).reverse)

/-- Flat model of file contents: absolute path ↦ byte content. -/
def fsLookup : List (String × List Nat) → String → Option (List Nat)
  | [], _ => none
  | (p, c) :: rest, q => if p = q then some c else fsLookup rest q

def fsWrite : List (String × List Nat) → String → List Nat → List (String × List Nat)
  | [], p, c => [(p, c)]
  | (p2, c2) :: rest, p, c =>
    if p2 = p then (p, c) :: rest else (p2, c2) :: fsWrite rest p c

/-- Model of `fileHandler.serveUploadTo` (src/server.go 235-260).  `form` is the
multipart `file` part (declared filename and content), or `none` when the
form has no such part (`http.ErrMissingFile`).  Returns the response, the
filesystem, and whether a non-nil error was returned to the caller.

The destination is `filepath.Join(osPath, filepath.Base(h.Filename))`, and
the file is opened with `O_CREATE|O_WRONLY` — *without* `O_TRUNC` — so the
uploaded bytes are copied from offset 0 over the old content and an existing
longer file keeps its old tail.  On `ErrMissingFile` the code writes the 303
redirect and then still returns the error.  (OS-level open/copy failures are
not modelled.) -/
def serveUploadTo (w : GoResponse) (urlStr osPath : String)
    (form : Option (String × List Nat)) (fs : List (String × List Nat)) :
    GoResponse × List (String × List Nat) × Bool :=
  match form with
  | none =>
    (writeHeader { w with location := some urlStr } 303, fs, true)
  | some (fname, content) =>
    let outPath := joinPath osPath (basePath fname)
    let newContent :=
      match fsLookup fs outPath with
      | none => content
      | some old => content ++ old.drop content.length
    (writeHeader { w with location := some urlStr } 303,
      fsWrite fs outPath newContent, false)

/-- The upload arm of `ServeHTTP`'s switch (src/server.go 297-301): run
`serveUploadTo` and, when it returns an error, fall into
`serveStatus(w, r, 500)`. -/
def handleUpload (w : GoResponse) (urlStr osPath : String)
    (form : Option (String × List Nat)) (fs : List (String × List Nat)) :
    GoResponse × List (String × List Nat) :=
  match serveUploadTo w urlStr osPath form fs with
  | (w2, fs2, true) => (serveStatus w2 500, fs2)
  | (w2, fs2, false) => (w2, fs2)

/-! Claims about the dispatcher and the upload handler. -/

/-- C3 counterexample: on a mount with `allowDelete = true`, a DELETE
request whose target is an existing directory does *not* produce 403 — the
delete gate only fires when deletes are disabled, and the delete branch
requires a non-directory, so the request falls through to the
directory-listing branch. -/
theorem dispatch_delete_dir_cex :
    dispatch { route := "/files", path := "/srv", allowUpload := false, allowDelete := true }
      "DELETE" [] (.ok true) = .serveDir ∧
    dispatch { route := "/files", path := "/srv", allowUpload := false, allowDelete := true }
      "DELETE" [] (.ok true) ≠ .respondStatus 403 := by
  constructor
  · rfl
  · decide

/-- C3 (amended): for every DELETE request on a mount with `allowDelete`
enabled whose resolved target exists and is a directory, the directory is
not removed (no branch that mutates the filesystem is selected), and — in
the absence of archive query parameters — the response is the directory
listing, not a 403. -/
theorem dispatch_delete_dir (f : fileHandler) (query : List (String × String))
    (hdel : f.allowDelete = true) :
    branchMutatesFs (dispatch f "DELETE" query (.ok true)) = false ∧
    (qget query "zip" = "" → qget query "tar.gz" = "" →
      dispatch f "DELETE" query (.ok true) = .serveDir) := by
  have h : dispatch f "DELETE" query (.ok true) =
      (if qget query "zip" ≠ "" then .serveZip
       else if qget query "tar.gz" ≠ "" then .serveTarGz
       else .serveDir) := by
    simp [dispatch, hdel]
  rw [h]
  constructor
  · split
    · rfl
    · split <;> rfl
  · intro h1 h2
    rw [if_neg (by simp [h1]), if_neg (by simp [h2])]

/-- Witness for `dispatch_delete_dir` at a concrete mount and request. -/
theorem dispatch_delete_dir_witness :
    branchMutatesFs
      (dispatch { route := "/files", path := "/srv", allowUpload := false, allowDelete := true }
        "DELETE" [] (.ok true)) = false ∧
    dispatch { route := "/files", path := "/srv", allowUpload := false, allowDelete := true }
      "DELETE" [] (.ok true) = .serveDir :=
  ⟨(dispatch_delete_dir _ [] rfl).1, (dispatch_delete_dir _ [] rfl).2 rfl rfl⟩

/-- C4: a POST to a mount with `allowUpload = false` whose target exists
is answered 403 and selects no branch that writes the filesystem; a DELETE
on a mount with `allowDelete = false` whose target exists is answered 403
and selects no branch that removes or writes anything. -/
theorem dispatch_feature_gating (f : fileHandler) (query : List (String × String))
    (isDir : Bool) :
    (f.allowUpload = false →
      dispatch f "POST" query (.ok isDir) = .respondStatus 403 ∧
      branchMutatesFs (dispatch f "POST" query (.ok isDir)) = false) ∧
    (f.allowDelete = false →
      dispatch f "DELETE" query (.ok isDir) = .respondStatus 403 ∧
      branchMutatesFs (dispatch f "DELETE" query (.ok isDir)) = false) := by
  constructor
  · intro h
    have hd : dispatch f "POST" query (.ok isDir) = .respondStatus 403 := by
      simp [dispatch, h]
    exact ⟨hd, by rw [hd]; rfl⟩
  · intro h
    have hd : dispatch f "DELETE" query (.ok isDir) = .respondStatus 403 := by
      simp [dispatch, h]
    exact ⟨hd, by rw [hd]; rfl⟩

/-- Witness for `dispatch_feature_gating` at a concrete mount. -/
theorem dispatch_feature_gating_witness :
    (dispatch { route := "/files", path := "/srv", allowUpload := false, allowDelete := false }
      "POST" [] (.ok true) = .respondStatus 403) ∧
    (dispatch { route := "/files", path := "/srv", allowUpload := false, allowDelete := false }
      "DELETE" [] (.ok false) = .respondStatus 403) :=
  ⟨((dispatch_feature_gating _ [] true).1 rfl).1,
    ((dispatch_feature_gating _ [] false).2 rfl).1⟩

/-- C5: a GET request on an existing target whose query carries
`zip=true` and `tar.gz=true` is dispatched to the zip branch — the zip check
precedes the tar.gz check — for every mount configuration, i.e. regardless
of the upload/delete flags. -/
theorem dispatch_zip_precedence (f : fileHandler) (query : List (String × String))
    (isDir : Bool) (hz : qget query "zip" = "true")
    (ht : qget query "tar.gz" = "true") :
    dispatch f "GET" query (.ok isDir) = .serveZip := by
  simp [dispatch, hz]

/-- Witness for `dispatch_zip_precedence` with both parameters present. -/
theorem dispatch_zip_precedence_witness :
    dispatch { route := "/files", path := "/srv", allowUpload := true, allowDelete := true }
      "GET" [("zip", "true"), ("tar.gz", "true")] (.ok true) = .serveZip :=
  dispatch_zip_precedence _ _ true rfl rfl

/-- C10: the archive branches trigger on *any* non-empty value of the
`zip` (resp. `tar.gz`) query parameter — the dispatcher compares
`Query().Get(key)` against `""`, not against `"true"` — so e.g.
`?zip=false` still yields the zip response. -/
theorem dispatch_archive_any_value (f : fileHandler) (query : List (String × String))
    (isDir : Bool) (v : String) :
    (qget query "zip" = v → v ≠ "" →
      dispatch f "GET" query (.ok isDir) = .serveZip) ∧
    (qget query "zip" = "" → qget query "tar.gz" = v → v ≠ "" →
      dispatch f "GET" query (.ok isDir) = .serveTarGz) := by
  constructor
  · intro h1 h2
    simp [dispatch, h1, h2]
  · intro h1 h2 h3
    simp [dispatch, h1, h2, h3]

/-- Witness for `dispatch_archive_any_value`: `?zip=false` produces the zip
response, and `?tar.gz=0` alone produces the tar.gz response. -/
theorem dispatch_archive_any_value_witness :
    dispatch { route := "/files", path := "/srv", allowUpload := false, allowDelete := false }
      "GET" [("zip", "false")] (.ok true) = .serveZip ∧
    dispatch { route := "/files", path := "/srv", allowUpload := false, allowDelete := false }
      "GET" [("tar.gz", "0")] (.ok true) = .serveTarGz :=
  ⟨(dispatch_archive_any_value _ [("zip", "false")] true "false").1 rfl (by decide),
    (dispatch_archive_any_value _ [("tar.gz", "0")] true "0").2 rfl rfl (by decide)⟩

/-- C2 at its failing input: uploading 2 bytes `BB` under the declared
name `f.txt` onto a directory already holding `f.txt` = 4 bytes `AAAA`
leaves `BBAA` — the uploaded bytes followed by the residue of the old
content — because the file is opened without `O_TRUNC`; the claimed
"content equals exactly the uploaded bytes" fails.  The traversal half of
the claim does hold: a declared name `../../evil.txt` writes only to
`<target>/evil.txt`. -/
theorem upload_overwrite_residue_cex :
    fsLookup (serveUploadTo emptyResponse "/files/d/" "/srv/d"
        (some ("f.txt", [66, 66])) [("/srv/d/f.txt", [65, 65, 65, 65])]).2.1
      "/srv/d/f.txt" = some [66, 66, 65, 65] ∧
    fsLookup (serveUploadTo emptyResponse "/files/d/" "/srv/d"
        (some ("f.txt", [66, 66])) [("/srv/d/f.txt", [65, 65, 65, 65])]).2.1
      "/srv/d/f.txt" ≠ some [66, 66] ∧
    (serveUploadTo emptyResponse "/files/d/" "/srv/d"
        (some ("../../evil.txt", [66])) []).2.1 = [("/srv/d/evil.txt", [66])] := by
  refine ⟨rfl, ?_, rfl⟩
  decide

/-- C6 at its failing input: a POST upload (upload allowed, target an
existing directory) whose multipart form has no `file` part yields a
response whose *status* is indeed 303 with a `Location` back to the current
URL and the filesystem untouched — but the handler returns
`http.ErrMissingFile` after writing the 303, so `ServeHTTP`'s error arm runs
`serveStatus(w, r, 500)`, whose `WriteHeader(500)` is a superfluous no-op
while its body write appends the error text `"Internal Server Error"` to the
303 response.  The claim's "no error body is written" fails. -/
theorem upload_missing_file_cex :
    (handleUpload emptyResponse "/files/d/" "/srv/d" none []).1.status = some 303 ∧
    (handleUpload emptyResponse "/files/d/" "/srv/d" none []).1.location = some "/files/d/" ∧
    (handleUpload emptyResponse "/files/d/" "/srv/d" none []).1.body
      = "Internal Server Error" ∧
    (handleUpload emptyResponse "/files/d/" "/srv/d" none []).2 = [] := by
  exact ⟨rfl, rfl, rfl, rfl⟩

/-! Size formatting (`fileSizeBytes.String`, src/server.go 87-108). -/

/-- Model of `fileSizeBytes.String` (src/server.go 87-108): sizes below 1024 print as
plain digits; otherwise the size is divided by 1024, 1024², or 1024³
(bucketed by the size itself) and rounded, with suffix `K`, `M`, or `G`.

Go computes `int(math.Round(float64(f) / float64(x)))`.  For
`0 ≤ f < 2^53` the `float64` conversion is exact and division by a power of
two is exact in binary floating point, so the result is exactly
round-half-away-from-zero of the rational `f/x`, which for the nonnegative
operands reaching `divBy` equals `(2*f + x) / (2*x)` in integer division;
that exact form is used here (the claims are stated below `2^53`). -/
def fileSizeString (f : Int) : String :=
  let KB : Int := 1024
  let MB : Int := 1024 * KB
  let GB : Int := 1024 * MB
  let divBy : Int → Int := fun x => (2 * f + x) / (2 * x)
  if f < KB then toString f
  else if f < MB then toString (divBy KB) ++ "K"
  else if f < GB then toString (divBy MB) ++ "M"
  else toString (divBy GB) ++ "G"

/-- Rounding to the nearest integer as worded by the spec (Mathlib's `round`
on the exact rational quotient; ties round up, matching the spec's
`1536 → "2K"` example and, on the nonnegative sizes at issue, Go's
`math.Round` ties-away-from-zero). -/
def specRound (f x : Int) : Int := round ((f : ℚ) / (x : ℚ))

lemma ediv_cast_floor (a : Int) (b : Nat) :
    (a : ℚ) / ((b : Nat) : ℚ) = ((a : ℚ) / ((b : ℤ) : ℚ)) := by
  norm_cast

lemma specRound_half (f x : Int) (b : Nat) (hb : (b : ℤ) = 2 * x)
    (hx : (x : ℚ) ≠ 0) :
    specRound f x = (2 * f + x) / (2 * x) := by
  rw [specRound, round_eq]
  have h : (f : ℚ) / (x : ℚ) + 1 / 2 = ((2 * f + x : ℤ) : ℚ) / ((b : ℕ) : ℚ) := by
    have hb' : ((b : ℕ) : ℚ) = 2 * (x : ℚ) := by
      rw [show ((b : ℕ) : ℚ) = (((b : ℤ)) : ℚ) by norm_cast, hb]
      push_cast
      ring
    rw [hb']
    field_simp
    ring
  rw [h, Rat.floor_intCast_div_natCast, hb]

/-- C7: the six sample values of the size formatter, and the general
bucket behavior — below 1024 plain digits, otherwise division by 1024,
1024², or 1024³ rounded to the nearest integer with suffix `K`, `M`, `G` —
for all byte counts in the range where the Go float computation is exact. -/
theorem fileSizeString_spec :
    fileSizeString 0 = "0" ∧ fileSizeString 1023 = "1023" ∧
    fileSizeString 1024 = "1K" ∧ fileSizeString 1536 = "2K" ∧
    fileSizeString 1048576 = "1M" ∧ fileSizeString 1073741824 = "1G" ∧
    ∀ f : Int, 0 ≤ f → f < 2 ^ 53 →
      (f < 1024 → fileSizeString f = toString f) ∧
      (1024 ≤ f → f < 1024 ^ 2 →
        fileSizeString f = toString (specRound f 1024) ++ "K") ∧
      (1024 ^ 2 ≤ f → f < 1024 ^ 3 →
        fileSizeString f = toString (specRound f (1024 ^ 2)) ++ "M") ∧
      (1024 ^ 3 ≤ f →
        fileSizeString f = toString (specRound f (1024 ^ 3)) ++ "G") := by
  refine ⟨rfl, rfl, rfl, rfl, rfl, rfl, ?_⟩
  intro f _ _
  have hK : specRound f 1024 = (2 * f + 1024) / 2048 :=
    specRound_half f 1024 2048 (by norm_num) (by norm_num)
  have hM : specRound f (1024 ^ 2) = (2 * f + 1024 ^ 2) / (2 * 1024 ^ 2) :=
    specRound_half f (1024 ^ 2) 2097152 (by norm_num) (by norm_num)
  have hG : specRound f (1024 ^ 3) = (2 * f + 1024 ^ 3) / (2 * 1024 ^ 3) :=
    specRound_half f (1024 ^ 3) 2147483648 (by norm_num) (by norm_num)
  refine ⟨?_, ?_, ?_, ?_⟩
  · intro h
    rw [fileSizeString, if_pos h]
  · intro h1 h2
    rw [fileSizeString, if_neg (by omega), if_pos (by norm_num at h2 ⊢; omega), hK]
    norm_num
  · intro h1 h2
    rw [fileSizeString, if_neg (by norm_num at h1 ⊢; omega),
      if_neg (by norm_num at h1 ⊢; omega), if_pos (by norm_num at h2 ⊢; omega), hM]
    norm_num
  · intro h1
    rw [fileSizeString, if_neg (by norm_num at h1 ⊢; omega),
      if_neg (by norm_num at h1 ⊢; omega), if_neg (by norm_num at h1 ⊢; omega), hG]
    norm_num

/-- Witness for `fileSizeString_spec`: its universally quantified part
applied at the tie value 1536 (second bucket). -/
theorem fileSizeString_spec_witness :
    (0 : Int) ≤ 1536 ∧ (1536 : Int) < 2 ^ 53 ∧
    fileSizeString 1536 = toString (specRound 1536 1024) ++ "K" :=
  ⟨by norm_num, by norm_num,
    ((fileSizeString_spec.2.2.2.2.2.2 1536 (by norm_num) (by norm_num)).2.1
      (by norm_num) (by norm_num))⟩

/-! Directory listing order (`fileHandler.serveDir`, src/server.go 161-170).

`serveDir` sorts the directory entries with
`sort.Slice(files, func(i, j int) bool { return files[i].Name() < files[j].Name() })`.
Go's `<` on strings is byte-wise lexicographic; on valid UTF-8 that order
coincides with the code-point-wise lexicographic order used here.
`sort.Slice` is modelled by insertion sort with the same less function:
names within one directory are distinct, so the sorted arrangement is
unique and any correct sort yields the same listing order. -/

/-- Lexicographic strict order on character lists by code point (Go's
byte-wise `<` on valid UTF-8 strings). -/
def charListLess : List Char → List Char → Bool
  | _, [] => false
  | [], _ :: _ => true
  | a :: as, b :: bs =>
    if a.toNat < b.toNat then true
    else if b.toNat < a.toNat then false
    else charListLess as bs

/-- Go `<` on strings: the comparison used by `serveDir`'s sort. -/
def goLess (a b : String) : Bool := charListLess a.data b.data

/-- Insert a name into an already sorted list of names. -/
def insertName (x : String) : List String → List String
  | [] => [x]
  | y :: ys => if goLess y x then y :: insertName x ys else x :: y :: ys

/-- The sort applied to the listed names (model of `sort.Slice` at
src/server.go 170). -/
def sortNames (l : List String) : List String := l.foldr insertName []

lemma charListLess_nil_right (l : List Char) : charListLess l [] = false := by
  cases l <;> rfl

lemma charListLess_asymm (a : List Char) :
    ∀ b, charListLess a b = true → charListLess b a = false := by
  induction a with
  | nil =>
    intro b h
    cases b with
    | nil => rfl
    | cons c cs => exact charListLess_nil_right _
  | cons x xs ih =>
    intro b h
    cases b with
    | nil => rw [charListLess_nil_right] at h; exact absurd h (by simp)
    | cons y ys =>
      by_cases h1 : x.toNat < y.toNat
      · have h2 : ¬ y.toNat < x.toNat := by omega
        rw [charListLess, if_neg h2, if_pos h1]
      · by_cases h2 : y.toNat < x.toNat
        · rw [charListLess, if_neg h1, if_pos h2] at h
          exact absurd h (by simp)
        · rw [charListLess, if_neg h1, if_neg h2] at h
          rw [charListLess, if_neg h2, if_neg h1]
          exact ih ys h

lemma charListLess_notlt_trans (a : List Char) :
    ∀ b c, charListLess b a = false → charListLess c b = false →
      charListLess c a = false := by
  induction a with
  | nil => intro b c _ _; exact charListLess_nil_right c
  | cons x xs ih =>
    intro b c h1 h2
    cases b with
    | nil => exact absurd h1 (by simp [charListLess])
    | cons y ys =>
      cases c with
      | nil => exact absurd h2 (by simp [charListLess])
      | cons z zs =>
        by_cases hyx : y.toNat < x.toNat
        · rw [charListLess, if_pos hyx] at h1
          exact absurd h1 (by simp)
        · by_cases hzy : z.toNat < y.toNat
          · rw [charListLess, if_pos hzy] at h2
            exact absurd h2 (by simp)
          · have hzx : ¬ z.toNat < x.toNat := by omega
            rw [charListLess, if_neg hzx]
            by_cases hxz : x.toNat < z.toNat
            · rw [if_pos hxz]
            · rw [if_neg hxz]
              have hxy : ¬ x.toNat < y.toNat := by omega
              have hyz : ¬ y.toNat < z.toNat := by omega
              rw [charListLess, if_neg hyx, if_neg hxy] at h1
              rw [charListLess, if_neg hzy, if_neg hyz] at h2
              exact ih ys zs h1 h2

lemma goLess_asymm {a b : String} (h : goLess a b = true) : goLess b a = false :=
  charListLess_asymm a.data b.data h

lemma goLess_notlt_trans {x y z : String} (h1 : goLess y x = false)
    (h2 : goLess z y = false) : goLess z x = false :=
  charListLess_notlt_trans x.data y.data z.data h1 h2

lemma insertName_perm (x : String) (l : List String) :
    (insertName x l).Perm (x :: l) := by
  induction l with
  | nil => exact List.Perm.refl _
  | cons y ys ih =>
    cases h : goLess y x with
    | true =>
      simp only [insertName, h, if_true]
      exact (ih.cons y).trans (List.Perm.swap x y ys)
    | false =>
      simp only [insertName, h]
      exact List.Perm.refl _

lemma insertName_pairwise (x : String) (l : List String)
    (hl : l.Pairwise (fun a b => goLess b a = false)) :
    (insertName x l).Pairwise (fun a b => goLess b a = false) := by
  induction l with
  | nil => simp [insertName]
  | cons y ys ih =>
    rw [List.pairwise_cons] at hl
    obtain ⟨hy, hys⟩ := hl
    cases h : goLess y x with
    | true =>
      simp only [insertName, h, if_true]
      rw [List.pairwise_cons]
      refine ⟨?_, ih hys⟩
      intro z hz
      rw [(insertName_perm x ys).mem_iff] at hz
      rcases List.mem_cons.mp hz with rfl | hz
      · exact goLess_asymm h
      · exact hy z hz
    | false =>
      have he : insertName x (y :: ys) = x :: y :: ys := by
        simp [insertName, h]
      rw [he, List.pairwise_cons]
      refine ⟨?_, List.pairwise_cons.mpr ⟨hy, hys⟩⟩
      intro z hz
      rcases List.mem_cons.mp hz with rfl | hz
      · exact h
      · exact goLess_notlt_trans h (hy z hz)

lemma sortNames_perm (l : List String) : (sortNames l).Perm l := by
  induction l with
  | nil => exact List.Perm.refl _
  | cons x xs ih =>
    exact (insertName_perm x (sortNames xs)).trans (ih.cons x)

lemma sortNames_pairwise (l : List String) :
    (sortNames l).Pairwise (fun a b => goLess b a = false) := by
  induction l with
  | nil => exact List.Pairwise.nil
  | cons x xs ih => exact insertName_pairwise x (sortNames xs) ih

/-- C8: the directory listing order is ascending case-sensitive byte
order: the sort emits a permutation of the entry names that is pairwise
non-descending under Go's byte-wise `<`, and the directory
`["b", "A", "a2", "B"]` is listed exactly as `A, B, a2, b` (uppercase
before lowercase, digits within names compared byte-wise). -/
theorem serveDir_sort_spec :
    sortNames ["b", "A", "a2", "B"] = ["A", "B", "a2", "b"] ∧
    ∀ l : List String,
      (sortNames l).Perm l ∧
      (sortNames l).Pairwise (fun a b => goLess b a = false) :=
  ⟨by decide, fun l => ⟨sortNames_perm l, sortNames_pairwise l⟩⟩

end HttpFileServer
